import Mathlib

/-!
Verification development for the core query engine of the cozo triple store.

The development shallowly embeds the two source files the claims are about:

* src/query/compile.rs — the rule-body compiler (SessionTx::compile_rule_body
  and its supporting data model: Term, Atom, QueryCompilationError).
* src/runtime/db.rs — Db::transact, Db::transact_write and Db::entities_at.

The relation algebra (query/relation.rs), the key codec (data/encode.rs) and
the value model (data/value.rs) are not part of the given sources; the
definitions for those parts are modelled from the specification and are marked
with a doc comment starting with the words: Modelled from the spec.
-/

/-- Keywords (crate::data::keyword::Keyword) are modelled as strings. -/
abbrev Keyword := String

/-- Entity ids (crate::data::id::EntityId) are 64-bit ids; modelled as Nat. -/
abbrev EntityId := Nat

/-- Validity timestamps (crate::data::id::Validity) are signed 64-bit
timestamps; modelled as Int. -/
abbrev Validity := Int

/-- Modelled from the spec: DataValue is a tagged value (data/value.rs is not
among the given sources).  Only the constructors the compiler touches are
carried: EnId is the constructor compile.rs builds for constant entities, the
rest stand for the remaining tags. -/
inductive DataValue where
  | null
  | boolean (b : Bool)
  | int (i : Int)
  | str (s : String)
  | enId (e : EntityId)
  | bottom
deriving DecidableEq

/-- Modelled from the spec: a registered attribute (data/attr.rs is not among
the given sources).  compile.rs only clones the attribute into TripleScan
nodes; db.rs additionally reads its cardinality.  Per the spec (section 3.2)
attribute names are in bijection with attribute ids, so the output of
entities_at is keyed by id below. -/
structure Attribute where
  id : Nat
  cardinalityOne : Bool
deriving DecidableEq

/-- Term from src/query/compile.rs. -/
inductive Term (α : Type) where
  | var (kw : Keyword)
  | const (a : α)
deriving DecidableEq

/-- AttrTripleAtom from src/query/compile.rs. -/
structure AttrTripleAtom where
  attr : Attribute
  entity : Term EntityId
  value : Term DataValue
deriving DecidableEq

/-- RuleApplyAtom from src/query/compile.rs. -/
structure RuleApplyAtom where
  name : Keyword
  args : List (Term DataValue)
deriving DecidableEq

/-- PredicateAtom from src/query/compile.rs. -/
structure PredicateAtom where
  left : Term DataValue
  right : Term DataValue
deriving DecidableEq

/-- Atom from src/query/compile.rs. -/
inductive Atom where
  | attrTriple (t : AttrTripleAtom)
  | rule (r : RuleApplyAtom)
  | pred (p : PredicateAtom)
deriving DecidableEq

/-- QueryCompilationError from src/query/compile.rs.  UnsafeUnboundVars
carries a BTreeSet of keywords, modelled as a list of keywords; the
UnexpectedForm variant is omitted (it carries a JSON value the embedding does
not need). -/
inductive QueryCompilationError where
  | arityMismatch (name : Keyword)
  | undefinedRule (name : Keyword)
  | unsafeUnboundVars (vars : List Keyword)
  | logicError (msg : String)
  | entryNotFound
deriving DecidableEq

/-- Modelled from the spec: the Relation plan nodes of query/relation.rs
(section 3.5 of the spec), restricted to the variants compile_rule_body
builds: unit, Singleton (singlet), TripleScan (triple), Derived, Join,
CartesianJoin and Reorder.  The extra proj node represents the effect of
eliminate_temp_vars, which per section 4.F drops the bindings outside the
keep-set: its bindings are the kept list. -/
inductive Relation where
  | unit
  | singlet (bindings : List Keyword) (vals : List DataValue)
  | triple (attr : Attribute) (vld : Validity) (ekw : Keyword) (vkw : Keyword)
  | derived (bindings : List Keyword) (store : Nat)
  | join (left : Relation) (right : Relation)
      (leftKeys : List Keyword) (rightKeys : List Keyword)
  | cartesianJoin (left : Relation) (right : Relation)
  | reorder (inner : Relation) (newOrder : List Keyword)
  | proj (inner : Relation) (kept : List Keyword)
deriving DecidableEq

/-- Modelled from the spec: Relation::bindings (section 3.5): unit has none, a
singlet and a derived store carry theirs, a triple scan binds its entity and
value keywords, a join outputs the left bindings plus the right bindings minus
the right keys, a cartesian join concatenates, a reorder outputs the new
order, and a projection outputs the kept list. -/
def Relation.bindings : Relation → List Keyword
  | .unit => []
  | .singlet bs _ => bs
  | .triple _ _ ekw vkw => [ekw, vkw]
  | .derived bs _ => bs
  | .join l r _ rkeys =>
      l.bindings ++ r.bindings.filter (fun x => !(rkeys.contains x))
  | .cartesianJoin l r => l.bindings ++ r.bindings
  | .reorder _ ord => ord
  | .proj _ kept => kept

/-- Modelled from the spec: Relation::is_unit (section 3.5). -/
def Relation.isUnit : Relation → Bool
  | .unit => true
  | _ => false

/-- The temp keyword gen_temp_kw produces for serial n: the string *n. -/
def tmpKw (n : Nat) : Keyword := "*" ++ toString n

/-- BTreeSet-style insertion into a membership set of keywords. -/
def insertSeen (kw : Keyword) (seen : List Keyword) : List Keyword :=
  if kw ∈ seen then seen else kw :: seen

/-- Equality of the keyword sets underlying two lists (BTreeMap sets compare
as sets of elements). -/
def listSetEq (a b : List Keyword) : Bool :=
  a.all (fun x => b.contains x) && b.all (fun x => a.contains x)

/-- Set difference of the keyword sets underlying two lists (BTreeSet::sub). -/
def listSdiff (a b : List Keyword) : List Keyword :=
  a.filter (fun x => !(b.contains x))

/-- Modelled from the spec: eliminate_temp_vars (section 4.F) drops the
bindings that are not in the keep-set; it is represented by a projection node
keeping the original bindings restricted to the keep-set. -/
def eliminateTempVars (r : Relation) (keep : List Keyword) : Relation :=
  .proj r (r.bindings.filter (fun x => keep.contains x))

/-- Outcome of a Rust computation that can return Ok, return Err, or abort
the process through a todo or unimplemented panic. -/
inductive CResult (α : Type) where
  | ok (a : α)
  | err (e : QueryCompilationError)
  | panicked
deriving DecidableEq

/-- Whether a CResult is an Ok value. -/
def CResult.isOk {α : Type} : CResult α → Bool
  | .ok _ => true
  | _ => false

/-- The mutable state of the compile_rule_body loop: the relation ret under
construction, the seen_variables set and the gen_temp_kw serial counter. -/
structure CompState where
  ret : Relation
  seen : List Keyword
  serial : Nat
deriving DecidableEq

/-- The stores map of compile_rule_body: rule name to (temp store id, arity);
the BTreeMap is modelled as an association list. -/
abbrev StoresMap := List (Keyword × Nat × Nat)

/-- Lookup in the stores map (BTreeMap::get). -/
def lookupStore (stores : StoresMap) (k : Keyword) : Option (Nat × Nat) :=
  (stores.find? (fun p => p.1 == k)).map Prod.snd

/-- Result of the argument scan of the Atom::Rule arm of compile_rule_body:
prev is prev_joiner_vars, tlb is temp_left_bindings, tlv is
temp_left_joiner_vals, rightJ is right_joiner_vars, rightV is right_vars,
together with the updated seen_variables set and serial counter. -/
structure RuleArgsOut where
  prev : List Keyword
  tlb : List Keyword
  tlv : List DataValue
  rightJ : List Keyword
  rightV : List Keyword
  seen : List Keyword
  serial : Nat
deriving DecidableEq

/-- The for-term-in-args loop of the Atom::Rule arm of compile_rule_body
(src/query/compile.rs lines 320 to 343): a seen variable contributes a left
join key and a fresh temp binding on the right; a fresh variable is recorded
and taken as output; a constant contributes a left singlet column and a join
key pair of fresh temps.  Pushing to the accumulating vectors in argument
order equals consing each contribution onto the scan of the remaining
arguments. -/
def processRuleArgs (seen : List Keyword) (serial : Nat) :
    List (Term DataValue) → RuleArgsOut
  | [] => ⟨[], [], [], [], [], seen, serial⟩
  | .var w :: rest =>
      if w ∈ seen then
        let o := processRuleArgs seen (serial + 1) rest
        ⟨w :: o.prev, o.tlb, o.tlv, tmpKw serial :: o.rightJ,
          tmpKw serial :: o.rightV, o.seen, o.serial⟩
      else
        let o := processRuleArgs (insertSeen w seen) serial rest
        ⟨o.prev, o.tlb, o.tlv, o.rightJ, w :: o.rightV, o.seen, o.serial⟩
  | .const c :: rest =>
      let o := processRuleArgs seen (serial + 2) rest
      ⟨tmpKw serial :: o.prev, tmpKw serial :: o.tlb, c :: o.tlv,
        tmpKw (serial + 1) :: o.rightJ, tmpKw (serial + 1) :: o.rightV,
        o.seen, o.serial⟩

/-- One iteration of the for-clause-in-clauses loop of compile_rule_body
(src/query/compile.rs lines 175 to 359), processing a single atom against the
current loop state.  The Atom::Predicate arm is a todo panic in the source;
the same-variable entity and value case of Atom::AttrTriple is an
unimplemented panic. -/
def stepAtom (vld : Validity) (stores : StoresMap) (a : Atom)
    (st : CompState) : CResult CompState :=
  match a with
  | .attrTriple t =>
    match t.entity, t.value with
    | .const eid, .var vKw =>
      let tl := tmpKw st.serial
      let tr := tmpKw (st.serial + 1)
      let constRel := Relation.singlet [tl] [DataValue.enId eid]
      let ret1 := if st.ret.isUnit then constRel
                  else .cartesianJoin st.ret constRel
      if vKw ∈ st.seen then
        let fresh := tmpKw (st.serial + 2)
        .ok ⟨.join ret1 (.triple t.attr vld tr fresh) [tl, vKw] [tr, fresh],
          st.seen, st.serial + 3⟩
      else
        .ok ⟨.join ret1 (.triple t.attr vld tr vKw) [tl] [tr],
          insertSeen vKw st.seen, st.serial + 2⟩
    | .var eKw, .const val =>
      let tl := tmpKw st.serial
      let tr := tmpKw (st.serial + 1)
      let constRel := Relation.singlet [tl] [val]
      let ret1 := if st.ret.isUnit then constRel
                  else .cartesianJoin st.ret constRel
      if eKw ∈ st.seen then
        let fresh := tmpKw (st.serial + 2)
        .ok ⟨.join ret1 (.triple t.attr vld fresh tr) [tl, eKw] [tr, fresh],
          st.seen, st.serial + 3⟩
      else
        .ok ⟨.join ret1 (.triple t.attr vld eKw tr) [tl] [tr],
          insertSeen eKw st.seen, st.serial + 2⟩
    | .var eKw, .var vKw =>
      if eKw == vKw then .panicked
      else if eKw ∈ st.seen then
        let eFresh := tmpKw st.serial
        if vKw ∈ st.seen then
          let vFresh := tmpKw (st.serial + 1)
          let right := Relation.triple t.attr vld eFresh vFresh
          if st.ret.isUnit then .ok ⟨right, st.seen, st.serial + 2⟩
          else .ok ⟨.join st.ret right [eKw, vKw] [eFresh, vFresh],
            st.seen, st.serial + 2⟩
        else
          let right := Relation.triple t.attr vld eFresh vKw
          if st.ret.isUnit then
            .ok ⟨right, insertSeen vKw st.seen, st.serial + 1⟩
          else .ok ⟨.join st.ret right [eKw] [eFresh],
            insertSeen vKw st.seen, st.serial + 1⟩
      else
        if vKw ∈ insertSeen eKw st.seen then
          let vFresh := tmpKw st.serial
          let right := Relation.triple t.attr vld eKw vFresh
          if st.ret.isUnit then
            .ok ⟨right, insertSeen eKw st.seen, st.serial + 1⟩
          else .ok ⟨.join st.ret right [vKw] [vFresh],
            insertSeen eKw st.seen, st.serial + 1⟩
        else
          let right := Relation.triple t.attr vld eKw vKw
          if st.ret.isUnit then
            .ok ⟨right, insertSeen vKw (insertSeen eKw st.seen), st.serial⟩
          else .ok ⟨.join st.ret right [] [],
            insertSeen vKw (insertSeen eKw st.seen), st.serial⟩
    | .const eid, .const val =>
      let l1 := tmpKw st.serial
      let l2 := tmpKw (st.serial + 1)
      let constRel := Relation.singlet [l1, l2] [DataValue.enId eid, val]
      let ret1 := if st.ret.isUnit then constRel
                  else .cartesianJoin st.ret constRel
      let r1 := tmpKw (st.serial + 2)
      let r2 := tmpKw (st.serial + 3)
      .ok ⟨.join ret1 (.triple t.attr vld r1 r2) [l1, l2] [r1, r2],
        st.seen, st.serial + 4⟩
  | .rule ra =>
    match lookupStore stores ra.name with
    | none => .err (.undefinedRule ra.name)
    | some (store, arity) =>
      if arity ≠ ra.args.length then .err (.arityMismatch ra.name)
      else
        let o := processRuleArgs st.seen st.serial ra.args
        let ret1 := if o.tlv.isEmpty then st.ret
                    else .cartesianJoin st.ret (.singlet o.tlb o.tlv)
        .ok ⟨.join ret1 (.derived o.rightV store) o.prev o.rightJ,
          o.seen, o.serial⟩
  | .pred _ => .panicked

/-- The for-clause-in-clauses loop of compile_rule_body, threading the loop
state through stepAtom and propagating errors and panics. -/
def goClauses (vld : Validity) (stores : StoresMap) :
    List Atom → CompState → CResult CompState
  | [], st => .ok st
  | c :: cs, st =>
    match stepAtom vld stores c st with
    | .ok st1 => goClauses vld stores cs st1
    | .err e => .err e
    | .panicked => .panicked

/-- SessionTx::compile_rule_body from src/query/compile.rs: run the clause
loop from the unit relation, empty seen set and serial 0, then eliminate temp
variables against the requested head variables, retry once after a cartesian
join with unit, fail with UnsafeUnboundVars when the binding set still
disagrees (the source computes the reported set as cur_ret_set minus
cur_ret_set), and reorder when only the order disagrees. -/
def compileRuleBody (clauses : List Atom) (vld : Validity)
    (stores : StoresMap) (retVars : List Keyword) : CResult Relation :=
  match goClauses vld stores clauses ⟨.unit, [], 0⟩ with
  | .ok st =>
    let ret1 := eliminateTempVars st.ret retVars
    let ret2 := if listSetEq ret1.bindings retVars then ret1
                else eliminateTempVars (.cartesianJoin ret1 .unit) retVars
    if listSetEq ret2.bindings retVars then
      if retVars == ret2.bindings then .ok ret2
      else .ok (.reorder ret2 retVars)
    else .err (.unsafeUnboundVars (listSdiff ret2.bindings ret2.bindings))
  | .err e => .err e
  | .panicked => .panicked

/-- The shared allocator state of a Db handle from src/runtime/db.rs: the
last_attr_id, last_ent_id and last_tx_id atomics.  The atomics are modelled
as plain state passed sequentially: any concurrent history of fetch_add and
load operations on an atomic serializes into such a sequence. -/
structure DbState where
  lastAttrId : Nat
  lastEntId : Nat
  lastTxId : Nat
deriving DecidableEq

/-- The part of SessionTx that db.rs populates differently between transact
and transact_write: the write transaction id. -/
structure SessionTxM where
  wTxId : Option Nat
deriving DecidableEq

/-- Db::transact from src/runtime/db.rs: a read-only session with w_tx_id
None; no allocator is touched. -/
def transact (db : DbState) : DbState × SessionTxM :=
  (db, ⟨none⟩)

/-- Db::transact_write from src/runtime/db.rs: last_tx_id.fetch_add(1)
observes the old counter value and bumps it; the session's write transaction
id is the observed value plus one. -/
def transactWrite (db : DbState) : DbState × SessionTxM :=
  let lastTxId := db.lastTxId
  ({ db with lastTxId := db.lastTxId + 1 }, ⟨some (lastTxId + 1)⟩)

/-- A sequence of k write-transaction begins against the shared allocator
state, collecting the assigned write transaction ids in order. -/
def beginWrites (db : DbState) : Nat → List Nat
  | 0 => []
  | k + 1 =>
    let p := transactWrite db
    (p.2.wTxId.getD 0) :: beginWrites p.1 k

/-- StoreOp from src/data/triple.rs (modelled from the spec: the one-byte op
tag of a stored value is either assert or retract). -/
inductive StoreOp where
  | assert
  | retract
deriving DecidableEq

/-- One stored EAVT entry as seen by Db::entities_at.  Modelled from the
spec, section 6.2: the key carries the entity, the attribute, the validity and
the key-encoded value; the value cell carries the one-byte op followed by the
value body.  The value payloads are abstracted to Nat codes. -/
structure Entry where
  eid : Nat
  aid : Nat
  vld : Int
  keyVal : Nat
  op : StoreOp
  valBody : Nat
deriving DecidableEq

/-- Modelled from the spec: decode_value_from_val reads the value bytes that
follow the one-byte op tag of the value cell. -/
def decodeValueFromVal (x : Entry) : Nat := x.valBody

/-- Modelled from the spec: decode_value_from_key reads the value encoded
inside the key. -/
def decodeValueFromKey (x : Entry) : Nat := x.keyVal

/-- Modelled from the spec: the EAVT key order (section 6.2): entity, then
attribute, then validity reversed (a greater validity sorts earlier), then the
key-encoded value. -/
def keyLt (x y : Entry) : Prop :=
  x.eid < y.eid ∨ (x.eid = y.eid ∧ (x.aid < y.aid ∨ (x.aid = y.aid ∧
    (y.vld < x.vld ∨ (x.vld = y.vld ∧ x.keyVal < y.keyVal)))))

instance (x y : Entry) : Decidable (keyLt x y) := by
  unfold keyLt; infer_instance

/-- Modelled from the spec: the two re-seek keys entities_at builds by
amending the validity of the current key (sections 4.E and 6.2): a key
standing for the pair (e, a) at a given validity, and a key standing for
(e, a) at validity minus infinity, which every entry of the (e, a) group
precedes. -/
inductive SeekKey where
  | atVld (e a : Nat) (q : Int)
  | pastGroup (e a : Nat)
deriving DecidableEq

/-- Whether an entry sorts at or after a seek key under the EAVT order. -/
def entGe (x : Entry) : SeekKey → Bool
  | .atVld e a q =>
      (e < x.eid) || (e == x.eid && (a < x.aid ||
        (a == x.aid && decide (x.vld ≤ q))))
  | .pastGroup e a =>
      (e < x.eid) || (e == x.eid && a < x.aid)

/-- Iterator seek: position at the first entry at or after the seek key.  The
iterator entries are kept as the sorted list of entries not yet passed. -/
def seekGe (k : SeekKey) (l : List Entry) : List Entry :=
  l.dropWhile (fun x => !(entGe x k))

/-- The output state of the entities_at scan: the (entity, attribute, value)
records inserted into the collected map, plus the entries whose value cell was
decoded (the iterations that reached the StoreOp decode of the loop). -/
structure ScanState where
  collected : List (Nat × Nat × Nat)
  decoded : List Entry
deriving DecidableEq

/-- The while-let loop of Db::entities_at (src/runtime/db.rs lines 246 to
291).  An entry whose stored validity exceeds the requested one triggers a
re-seek at the requested validity within the same group; otherwise the op is
decoded: a retraction skips past the group, an assertion of an unknown
attribute skips past the group, and an assertion of a known attribute reports
the value (from the value cell for cardinality one, from the key for
cardinality many) and then skips past the group.  Each re-seek target is at or
after the entry just examined, so seeking in the remaining entries equals
seeking the whole iterator. -/
def scanLoop (q : Int) (cat : Nat → Option Attribute) :
    List Entry → ScanState → ScanState
  | [], st => st
  | cur :: rest, st =>
    if q < cur.vld then
      scanLoop q cat (seekGe (.atVld cur.eid cur.aid q) rest) st
    else
      match cur.op with
      | .retract =>
          scanLoop q cat (seekGe (.pastGroup cur.eid cur.aid) rest)
            ⟨st.collected, st.decoded ++ [cur]⟩
      | .assert =>
        match cat cur.aid with
        | none =>
            scanLoop q cat (seekGe (.pastGroup cur.eid cur.aid) rest)
              ⟨st.collected, st.decoded ++ [cur]⟩
        | some attr =>
            scanLoop q cat (seekGe (.pastGroup cur.eid cur.aid) rest)
              ⟨st.collected ++ [(cur.eid, cur.aid,
                  if attr.cardinalityOne then decodeValueFromVal cur
                  else decodeValueFromKey cur)],
                st.decoded ++ [cur]⟩
  termination_by l _ => l.length
  decreasing_by
    all_goals
      exact Nat.lt_succ_of_le ((List.dropWhile_sublist _).length_le)

/-- Db::entities_at from src/runtime/db.rs, run over the sorted EAVT section
of the store. -/
def entitiesAt (q : Int) (cat : Nat → Option Attribute)
    (store : List Entry) : ScanState :=
  scanLoop q cat store ⟨[], []⟩

/-- The first entry of the (e, a) key group whose stored validity is at most
the requested validity, in EAVT order. -/
def firstLE (e a : Nat) (q : Int) (l : List Entry) : Option Entry :=
  l.find? (fun x => x.eid == e && x.aid == a && decide (x.vld ≤ q))

theorem goClauses_append (vld : Validity) (stores : StoresMap)
    (l1 l2 : List Atom) (st : CompState) :
    goClauses vld stores (l1 ++ l2) st =
      match goClauses vld stores l1 st with
      | .ok st1 => goClauses vld stores l2 st1
      | .err e => .err e
      | .panicked => .panicked := by
  induction l1 generalizing st with
  | nil => rfl
  | cons c cs ih =>
    simp only [List.cons_append, goClauses]
    cases stepAtom vld stores c st with
    | ok st1 => exact ih st1
    | err e => rfl
    | panicked => rfl

theorem listSdiff_self (l : List Keyword) : listSdiff l l = [] := by
  simp only [listSdiff, List.filter_eq_nil_iff]
  intro a ha
  simp [List.elem_eq_mem, ha]

/-- Claim C2: the claim expects the UnsafeUnboundVars error raised for the
rule with head variables x, y and body parent(x, z) to carry the unbound
variable y; the source computes the reported set as cur_ret_set minus
cur_ret_set (src/query/compile.rs line 372), which is always empty, so the
error carries the empty set.  The second conjunct shows the difference the
source computes is empty for every binding list. -/
theorem compileRuleBody_unsafe_unbound_vars_empty :
    compileRuleBody [Atom.rule ⟨"parent", [.var "x", .var "z"]⟩] 0
        [("parent", (0, 2))] ["x", "y"]
      = CResult.err (.unsafeUnboundVars [])
    ∧ ∀ (l : List Keyword), listSdiff l l = [] :=
  ⟨by rfl, listSdiff_self⟩

/-- Claim C5: whenever compile_rule_body returns a relation, its bindings are
exactly the requested head variables ret_vars in their order; when only the
order differed a Reorder node to the requested order was inserted last. -/
theorem compileRuleBody_ok_bindings (clauses : List Atom) (vld : Validity)
    (stores : StoresMap) (retVars : List Keyword) (rel : Relation)
    (h : compileRuleBody clauses vld stores retVars = .ok rel) :
    rel.bindings = retVars := by
  unfold compileRuleBody at h
  cases hgo : goClauses vld stores clauses ⟨.unit, [], 0⟩ with
  | ok st =>
    rw [hgo] at h
    simp only [] at h
    split at h
    · split at h
      · rename_i hord
        injection h with h
        subst h
        exact (beq_iff_eq.mp hord).symm
      · injection h with h
        subst h
        rfl
    · rename_i hset1
      split at h
      · split at h
        · rename_i hord
          injection h with h
          subst h
          exact (beq_iff_eq.mp hord).symm
        · injection h with h
          subst h
          rfl
      · exact absurd h (by simp)
  | err e =>
    rw [hgo] at h
    exact absurd h (by simp)
  | panicked =>
    rw [hgo] at h
    exact absurd h (by simp)

/-- Witness for claim C5 at a concrete one-atom body. -/
theorem compileRuleBody_ok_bindings_witness :
    compileRuleBody [Atom.attrTriple ⟨⟨7, true⟩, .var "x", .var "y"⟩] 0 []
        ["x", "y"]
      = CResult.ok (Relation.proj (.triple ⟨7, true⟩ 0 "x" "y") ["x", "y"])
    ∧ (Relation.proj (.triple ⟨7, true⟩ 0 "x" "y") ["x", "y"]).bindings
        = ["x", "y"] :=
  ⟨by rfl,
    compileRuleBody_ok_bindings [Atom.attrTriple ⟨⟨7, true⟩, .var "x", .var "y"⟩]
      0 [] ["x", "y"]
      (Relation.proj (.triple ⟨7, true⟩ 0 "x" "y") ["x", "y"]) (by rfl)⟩

/-- Claim C6: a RuleApply atom whose name is absent from the stores map makes
compile_rule_body fail with UndefinedRule naming that rule, and one whose
argument count differs from the registered arity makes it fail with
ArityMismatch naming that rule, whenever the preceding atoms of the body
compile without error. -/
theorem ruleApply_undefined_and_arity_errors (pre rest : List Atom)
    (ra : RuleApplyAtom) (vld : Validity) (stores : StoresMap)
    (retVars : List Keyword) (st : CompState)
    (hpre : goClauses vld stores pre ⟨.unit, [], 0⟩ = .ok st) :
    (lookupStore stores ra.name = none →
      compileRuleBody (pre ++ Atom.rule ra :: rest) vld stores retVars
        = .err (.undefinedRule ra.name))
    ∧ (∀ ts ar, lookupStore stores ra.name = some (ts, ar) →
        ar ≠ ra.args.length →
        compileRuleBody (pre ++ Atom.rule ra :: rest) vld stores retVars
          = .err (.arityMismatch ra.name)) := by
  constructor
  · intro hlook
    have hstep : goClauses vld stores (Atom.rule ra :: rest) st
        = .err (.undefinedRule ra.name) := by
      simp only [goClauses, stepAtom, hlook]
    unfold compileRuleBody
    rw [goClauses_append, hpre]
    simp only [hstep]
  · intro ts ar hlook har
    have hstep : goClauses vld stores (Atom.rule ra :: rest) st
        = .err (.arityMismatch ra.name) := by
      simp only [goClauses, stepAtom, hlook, if_pos har]
    unfold compileRuleBody
    rw [goClauses_append, hpre]
    simp only [hstep]

/-- Witness for claim C6: an undefined rule name and an arity mismatch at
concrete inputs. -/
theorem ruleApply_undefined_and_arity_errors_witness :
    compileRuleBody [Atom.rule ⟨"q", []⟩] 0 [("p", (0, 2))] []
      = CResult.err (.undefinedRule "q")
    ∧ compileRuleBody [Atom.rule ⟨"p", [.var "x"]⟩] 0 [("p", (0, 2))] []
      = CResult.err (.arityMismatch "p") :=
  ⟨(ruleApply_undefined_and_arity_errors [] [] ⟨"q", []⟩ 0 [("p", (0, 2))] []
      ⟨.unit, [], 0⟩ rfl).1 rfl,
   (ruleApply_undefined_and_arity_errors [] [] ⟨"p", [.var "x"]⟩ 0
      [("p", (0, 2))] [] ⟨.unit, [], 0⟩ rfl).2 0 2 rfl (by decide)⟩

/-- Claim C9: an AttrTriple atom whose entity and value are the same variable
makes compile_rule_body abort with an unimplemented panic, whenever the
preceding atoms of the body compile without error. -/
theorem attrTriple_same_var_panics (pre rest : List Atom) (attr : Attribute)
    (w : Keyword) (vld : Validity) (stores : StoresMap)
    (retVars : List Keyword) (st : CompState)
    (hpre : goClauses vld stores pre ⟨.unit, [], 0⟩ = .ok st) :
    compileRuleBody (pre ++ Atom.attrTriple ⟨attr, .var w, .var w⟩ :: rest)
        vld stores retVars
      = CResult.panicked := by
  have hstep : goClauses vld stores
      (Atom.attrTriple ⟨attr, .var w, .var w⟩ :: rest) st = .panicked := by
    simp [goClauses, stepAtom]
  unfold compileRuleBody
  rw [goClauses_append, hpre]
  simp only [hstep]

/-- Witness for claim C9 at a concrete one-atom body. -/
theorem attrTriple_same_var_panics_witness :
    compileRuleBody [Atom.attrTriple ⟨⟨7, true⟩, .var "w", .var "w"⟩] 0 [] []
      = CResult.panicked :=
  attrTriple_same_var_panics [] [] ⟨7, true⟩ "w" 0 [] [] ⟨.unit, [], 0⟩ rfl

/-- Counterexample for claim C1: at a concrete rule body holding a Predicate
atom, compile_rule_body does not return normally with a Filter-wrapped
relation; it aborts with a todo panic. -/
theorem predicate_atom_counterexample :
    compileRuleBody [Atom.pred ⟨.const .null, .const .null⟩] 0 [] []
      = CResult.panicked
    ∧ (compileRuleBody [Atom.pred ⟨.const .null, .const .null⟩] 0 [] []).isOk
      = false :=
  ⟨by rfl, by rfl⟩

/-- Claim C1 amended: a rule body whose preceding atoms compile without error
and that then holds a Predicate atom makes compile_rule_body abort with a
todo panic; no Filter relation is built. -/
theorem predicate_atom_panics (pre rest : List Atom) (p : PredicateAtom)
    (vld : Validity) (stores : StoresMap) (retVars : List Keyword)
    (st : CompState)
    (hpre : goClauses vld stores pre ⟨.unit, [], 0⟩ = .ok st) :
    compileRuleBody (pre ++ Atom.pred p :: rest) vld stores retVars
      = CResult.panicked := by
  have hstep : goClauses vld stores (Atom.pred p :: rest) st = .panicked := by
    simp [goClauses, stepAtom]
  unfold compileRuleBody
  rw [goClauses_append, hpre]
  simp only [hstep]

/-- Witness for the amended claim C1 at a concrete one-atom body. -/
theorem predicate_atom_panics_witness :
    compileRuleBody [Atom.pred ⟨.var "x", .const .null⟩] 0 [] []
      = CResult.panicked :=
  predicate_atom_panics [] [] ⟨.var "x", .const .null⟩ 0 [] [] ⟨.unit, [], 0⟩
    rfl

theorem beginWrites_formula (k : Nat) :
    ∀ (db : DbState),
      beginWrites db k = (List.range k).map (fun i => db.lastTxId + 1 + i) := by
  induction k with
  | zero => intro db; rfl
  | succ n ih =>
    intro db
    have hstep : beginWrites db (n + 1)
        = (db.lastTxId + 1) ::
          beginWrites ⟨db.lastAttrId, db.lastEntId, db.lastTxId + 1⟩ n := by
      simp [beginWrites, transactWrite]
    rw [hstep, ih ⟨db.lastAttrId, db.lastEntId, db.lastTxId + 1⟩,
      List.range_succ_eq_map, List.map_cons, List.map_map]
    simp only [Nat.add_zero]
    congr 1
    apply List.map_congr_left
    intro i _
    simp only [Function.comp_apply]
    omega

/-- Claim C7: each transact_write begin increments the shared last_tx_id
allocator by one and assigns the new session the incremented value as its
write TxId, so a sequence of write begins yields strictly increasing TxIds,
each one greater than the allocator value it observed.  The fetch_add atomics
are modelled as a sequential state machine, which any interleaving of the
atomic operations serializes into. -/
theorem transactWrite_txids_strictly_increasing (db : DbState) (k : Nat) :
    beginWrites db k = (List.range k).map (fun i => db.lastTxId + 1 + i)
    ∧ List.Pairwise (fun x y => x < y) (beginWrites db k)
    ∧ (transactWrite db).2.wTxId = some (db.lastTxId + 1)
    ∧ (transactWrite db).1.lastTxId = db.lastTxId + 1 := by
  refine ⟨beginWrites_formula k db, ?_, rfl, rfl⟩
  rw [beginWrites_formula k db]
  rw [List.pairwise_map]
  exact (List.pairwise_lt_range k).imp (fun h => by omega)

/-- Claim C10: beginning a read-only transaction leaves the last_tx_id,
last_ent_id and last_attr_id allocators unchanged and yields a session with
no write TxId; only transact_write advances the TxId allocator, and it leaves
the entity and attribute allocators alone. -/
theorem transact_read_only_frame (db : DbState) :
    (transact db).1 = db
    ∧ (transact db).1.lastTxId = db.lastTxId
    ∧ (transact db).1.lastEntId = db.lastEntId
    ∧ (transact db).1.lastAttrId = db.lastAttrId
    ∧ (transact db).2.wTxId = none
    ∧ (transactWrite db).1.lastTxId = db.lastTxId + 1
    ∧ (transactWrite db).1.lastEntId = db.lastEntId
    ∧ (transactWrite db).1.lastAttrId = db.lastAttrId
    ∧ (transactWrite db).2.wTxId = some (db.lastTxId + 1) :=
  ⟨rfl, rfl, rfl, rfl, rfl, rfl, rfl, rfl, rfl⟩

theorem processRuleArgs_key_lists_length (seen : List Keyword) (n : Nat)
    (args : List (Term DataValue)) :
    (processRuleArgs seen n args).prev.length
      = (processRuleArgs seen n args).rightJ.length := by
  induction args generalizing seen n with
  | nil => rfl
  | cons t rest ih =>
    cases t with
    | var w =>
      by_cases hw : w ∈ seen
      · simp [processRuleArgs, hw, ih]
      · simp [processRuleArgs, hw, ih]
    | const c => simp [processRuleArgs, ih]

theorem stepAtom_ok_not_unit (vld : Validity) (stores : StoresMap) (a : Atom)
    (st st1 : CompState) (h : stepAtom vld stores a st = .ok st1) :
    st1.ret.isUnit = false := by
  cases a with
  | attrTriple t =>
    obtain ⟨attr, te, tv⟩ := t
    cases te <;> cases tv <;> simp only [stepAtom] at h <;>
      (repeat' split at h) <;> (try cases h) <;> rfl
  | rule ra =>
    simp only [stepAtom] at h
    (repeat' split at h) <;> (try cases h) <;> rfl
  | pred p => simp [stepAtom] at h

theorem goClauses_ok_cases (vld : Validity) (stores : StoresMap) :
    ∀ (clauses : List Atom) (st0 st1 : CompState),
      goClauses vld stores clauses st0 = .ok st1 →
      st1 = st0 ∨ st1.ret.isUnit = false := by
  intro clauses
  induction clauses with
  | nil =>
    intro st0 st1 h
    left
    injection h with h
    exact h.symm
  | cons c cs ih =>
    intro st0 st1 h
    simp only [goClauses] at h
    cases hs : stepAtom vld stores c st0 with
    | ok stm =>
      rw [hs] at h
      rcases ih stm st1 h with h1 | h1
      · right
        rw [h1]
        exact stepAtom_ok_not_unit vld stores c st0 stm hs
      · right
        exact h1
    | err e =>
      rw [hs] at h
      cases h
    | panicked =>
      rw [hs] at h
      cases h

/-- Claim C4: an atom that reintroduces a variable already in the seen set
(in any AttrTriple shape with a variable slot — companion constant, companion
fresh variable on either side, or companion variable itself already seen — or
as a RuleApply argument) gives the right-hand relation a fresh temp binding
in place of that variable, appends the previously seen binding to the left
join-key list and the fresh temp binding to the right join-key list, the two
join-key lists always having equal length; the final conjunct shows the ret
relation of any reachable compile state with a seen variable is not unit, so
the join-key lists are consumed by a real join. -/
theorem reseen_variable_rule (vld : Validity) (stores : StoresMap)
    (st : CompState) (w u w2 : Keyword) (attr : Attribute) (eid : EntityId)
    (dv : DataValue) (rest : List (Term DataValue))
    (hw : w ∈ st.seen) (hu : u ∉ st.seen) (huw : u ≠ w)
    (hw2 : w2 ∈ st.seen) (hw2w : w2 ≠ w) :
    (stepAtom vld stores (.attrTriple ⟨attr, .const eid, .var w⟩) st
      = .ok ⟨.join
          (if st.ret.isUnit then Relation.singlet [tmpKw st.serial] [.enId eid]
           else .cartesianJoin st.ret (.singlet [tmpKw st.serial] [.enId eid]))
          (.triple attr vld (tmpKw (st.serial + 1)) (tmpKw (st.serial + 2)))
          [tmpKw st.serial, w]
          [tmpKw (st.serial + 1), tmpKw (st.serial + 2)],
        st.seen, st.serial + 3⟩)
    ∧ (stepAtom vld stores (.attrTriple ⟨attr, .var w, .const dv⟩) st
      = .ok ⟨.join
          (if st.ret.isUnit then Relation.singlet [tmpKw st.serial] [dv]
           else .cartesianJoin st.ret (.singlet [tmpKw st.serial] [dv]))
          (.triple attr vld (tmpKw (st.serial + 2)) (tmpKw (st.serial + 1)))
          [tmpKw st.serial, w]
          [tmpKw (st.serial + 1), tmpKw (st.serial + 2)],
        st.seen, st.serial + 3⟩)
    ∧ (stepAtom vld stores (.attrTriple ⟨attr, .var w, .var u⟩) st
      = .ok ⟨if st.ret.isUnit then Relation.triple attr vld (tmpKw st.serial) u
             else .join st.ret (.triple attr vld (tmpKw st.serial) u)
               [w] [tmpKw st.serial],
          insertSeen u st.seen, st.serial + 1⟩)
    ∧ (stepAtom vld stores (.attrTriple ⟨attr, .var u, .var w⟩) st
      = .ok ⟨if st.ret.isUnit then Relation.triple attr vld u (tmpKw st.serial)
             else .join st.ret (.triple attr vld u (tmpKw st.serial))
               [w] [tmpKw st.serial],
          insertSeen u st.seen, st.serial + 1⟩)
    ∧ (stepAtom vld stores (.attrTriple ⟨attr, .var w, .var w2⟩) st
      = .ok ⟨if st.ret.isUnit then
               Relation.triple attr vld (tmpKw st.serial) (tmpKw (st.serial + 1))
             else .join st.ret
               (.triple attr vld (tmpKw st.serial) (tmpKw (st.serial + 1)))
               [w, w2] [tmpKw st.serial, tmpKw (st.serial + 1)],
          st.seen, st.serial + 2⟩)
    ∧ (processRuleArgs st.seen st.serial (.var w :: rest)
      = ⟨w :: (processRuleArgs st.seen (st.serial + 1) rest).prev,
         (processRuleArgs st.seen (st.serial + 1) rest).tlb,
         (processRuleArgs st.seen (st.serial + 1) rest).tlv,
         tmpKw st.serial :: (processRuleArgs st.seen (st.serial + 1) rest).rightJ,
         tmpKw st.serial :: (processRuleArgs st.seen (st.serial + 1) rest).rightV,
         (processRuleArgs st.seen (st.serial + 1) rest).seen,
         (processRuleArgs st.seen (st.serial + 1) rest).serial⟩)
    ∧ (∀ (seen0 : List Keyword) (n : Nat) (args : List (Term DataValue)),
        (processRuleArgs seen0 n args).prev.length
          = (processRuleArgs seen0 n args).rightJ.length)
    ∧ (∀ (clauses : List Atom) (st1 : CompState) (w1 : Keyword),
        goClauses vld stores clauses ⟨.unit, [], 0⟩ = .ok st1 →
        w1 ∈ st1.seen → st1.ret.isUnit = false) := by
  refine ⟨?_, ?_, ?_, ?_, ?_, ?_, ?_, ?_⟩
  · simp [stepAtom, hw]
  · simp [stepAtom, hw]
  · have hne : (w == u) = false := by simp [Ne.symm huw]
    simp only [stepAtom]
    rw [if_neg (by simp [hne]), if_pos hw, if_neg hu]
    split <;> rfl
  · have hne : (u == w) = false := by simp [huw]
    have hmem : w ∈ insertSeen u st.seen := by simp [insertSeen, hu, hw]
    simp only [stepAtom]
    rw [if_neg (by simp [hne]), if_neg hu, if_pos hmem]
    split <;> rfl
  · have hne : (w == w2) = false := by simp [Ne.symm hw2w]
    simp only [stepAtom]
    rw [if_neg (by simp [hne]), if_pos hw, if_pos hw2]
    split <;> rfl
  · simp [processRuleArgs, hw]
  · exact processRuleArgs_key_lists_length
  · intro clauses st1 w1 hgo hmem
    rcases goClauses_ok_cases vld stores clauses ⟨.unit, [], 0⟩ st1 hgo
      with h1 | h1
    · rw [h1] at hmem
      exact absurd hmem (by simp)
    · exact h1

/-- Witness for claim C4 at a concrete state whose seen set holds w and z,
exercising the constant-entity re-seen shape and the shape whose entity and
value variables are both already seen. -/
theorem reseen_variable_rule_witness :
    ("w" ∈ (["w", "z"] : List Keyword))
    ∧ ("u" ∉ (["w", "z"] : List Keyword))
    ∧ ("u" ≠ "w")
    ∧ ("z" ∈ (["w", "z"] : List Keyword))
    ∧ ("z" ≠ "w")
    ∧ stepAtom 0 [] (.attrTriple ⟨⟨7, true⟩, .const 5, .var "w"⟩)
        ⟨Relation.derived ["w"] 0, ["w", "z"], 0⟩
      = .ok ⟨.join
          (.cartesianJoin (.derived ["w"] 0) (.singlet [tmpKw 0] [.enId 5]))
          (.triple ⟨7, true⟩ 0 (tmpKw 1) (tmpKw 2))
          [tmpKw 0, "w"] [tmpKw 1, tmpKw 2],
        ["w", "z"], 3⟩
    ∧ stepAtom 0 [] (.attrTriple ⟨⟨7, true⟩, .var "w", .var "z"⟩)
        ⟨Relation.derived ["w"] 0, ["w", "z"], 0⟩
      = .ok ⟨.join (.derived ["w"] 0)
          (.triple ⟨7, true⟩ 0 (tmpKw 0) (tmpKw 1))
          ["w", "z"] [tmpKw 0, tmpKw 1],
        ["w", "z"], 2⟩ :=
  ⟨by decide, by decide, by decide, by decide, by decide,
    (reseen_variable_rule 0 [] ⟨Relation.derived ["w"] 0, ["w", "z"], 0⟩
      "w" "u" "z" ⟨7, true⟩ 5 .null [] (by decide) (by decide) (by decide)
      (by decide) (by decide)).1,
    (reseen_variable_rule 0 [] ⟨Relation.derived ["w"] 0, ["w", "z"], 0⟩
      "w" "u" "z" ⟨7, true⟩ 5 .null [] (by decide) (by decide) (by decide)
      (by decide) (by decide)).2.2.2.2.1⟩

theorem scanLoop_nil (q : Int) (cat : Nat → Option Attribute) (st : ScanState) :
    scanLoop q cat [] st = st := by
  rw [scanLoop]

theorem scanLoop_cons (q : Int) (cat : Nat → Option Attribute) (cur : Entry)
    (rest : List Entry) (st : ScanState) :
    scanLoop q cat (cur :: rest) st =
      if q < cur.vld then
        scanLoop q cat (seekGe (.atVld cur.eid cur.aid q) rest) st
      else
        match cur.op with
        | .retract =>
            scanLoop q cat (seekGe (.pastGroup cur.eid cur.aid) rest)
              ⟨st.collected, st.decoded ++ [cur]⟩
        | .assert =>
          match cat cur.aid with
          | none =>
              scanLoop q cat (seekGe (.pastGroup cur.eid cur.aid) rest)
                ⟨st.collected, st.decoded ++ [cur]⟩
          | some attr =>
              scanLoop q cat (seekGe (.pastGroup cur.eid cur.aid) rest)
                ⟨st.collected ++ [(cur.eid, cur.aid,
                    if attr.cardinalityOne then decodeValueFromVal cur
                    else decodeValueFromKey cur)],
                  st.decoded ++ [cur]⟩ := by
  rw [scanLoop]

theorem seekGe_length_le (k : SeekKey) (l : List Entry) :
    (seekGe k l).length ≤ l.length :=
  (List.dropWhile_sublist _).length_le

theorem seekGe_subset (k : SeekKey) (l : List Entry) :
    ∀ x ∈ seekGe k l, x ∈ l :=
  fun _ hx => (List.dropWhile_sublist _).subset hx

theorem scanLoop_decomp (q : Int) (cat : Nat → Option Attribute) :
    ∀ (n : Nat) (l : List Entry), l.length ≤ n → ∀ (st : ScanState),
      scanLoop q cat l st =
        ⟨st.collected ++ (scanLoop q cat l ⟨[], []⟩).collected,
         st.decoded ++ (scanLoop q cat l ⟨[], []⟩).decoded⟩ := by
  intro n
  induction n with
  | zero =>
    intro l hl st
    have hnil : l = [] := List.eq_nil_of_length_eq_zero (Nat.le_zero.mp hl)
    subst hnil
    simp [scanLoop_nil]
  | succ n ih =>
    intro l hl st
    cases l with
    | nil => simp [scanLoop_nil]
    | cons cur rest =>
      have hrest : rest.length ≤ n := Nat.le_of_succ_le_succ hl
      have hlen : ∀ k, (seekGe k rest).length ≤ n :=
        fun k => le_trans (seekGe_length_le k rest) hrest
      by_cases hv : q < cur.vld
      · rw [scanLoop_cons, if_pos hv, scanLoop_cons, if_pos hv]
        exact ih _ (hlen _) st
      · rw [scanLoop_cons, if_neg hv, scanLoop_cons, if_neg hv]
        cases hop : cur.op with
        | retract =>
          dsimp only
          rw [ih _ (hlen _) ⟨st.collected, st.decoded ++ [cur]⟩,
            ih _ (hlen _) ⟨[], [] ++ [cur]⟩]
          simp
        | assert =>
          cases hcat : cat cur.aid with
          | none =>
            dsimp only
            rw [ih _ (hlen _) ⟨st.collected, st.decoded ++ [cur]⟩,
              ih _ (hlen _) ⟨[], [] ++ [cur]⟩]
            simp
          | some attr =>
            dsimp only
            rw [ih _ (hlen _) ⟨st.collected ++ [(cur.eid, cur.aid,
                  if attr.cardinalityOne then decodeValueFromVal cur
                  else decodeValueFromKey cur)], st.decoded ++ [cur]⟩,
              ih _ (hlen _) ⟨[] ++ [(cur.eid, cur.aid,
                  if attr.cardinalityOne then decodeValueFromVal cur
                  else decodeValueFromKey cur)], [] ++ [cur]⟩]
            simp

theorem scanLoop_origin (q : Int) (cat : Nat → Option Attribute) :
    ∀ (n : Nat) (l : List Entry), l.length ≤ n → ∀ (st : ScanState),
      (∀ r ∈ (scanLoop q cat l st).collected, r ∈ st.collected ∨
        ∃ x, x ∈ l ∧ x.eid = r.1 ∧ x.aid = r.2.1 ∧ x.op = StoreOp.assert ∧
          x.vld ≤ q ∧ ∃ attr, cat x.aid = some attr ∧
            r.2.2 = (if attr.cardinalityOne then decodeValueFromVal x
              else decodeValueFromKey x))
      ∧ (∀ g ∈ (scanLoop q cat l st).decoded,
          g ∈ st.decoded ∨ (g ∈ l ∧ g.vld ≤ q)) := by
  intro n
  induction n with
  | zero =>
    intro l hl st
    have hnil : l = [] := List.eq_nil_of_length_eq_zero (Nat.le_zero.mp hl)
    subst hnil
    rw [scanLoop_nil]
    exact ⟨fun r hr => Or.inl hr, fun g hg => Or.inl hg⟩
  | succ n ih =>
    intro l hl st
    cases l with
    | nil =>
      rw [scanLoop_nil]
      exact ⟨fun r hr => Or.inl hr, fun g hg => Or.inl hg⟩
    | cons cur rest =>
      have hrest : rest.length ≤ n := Nat.le_of_succ_le_succ hl
      have hlen : ∀ k, (seekGe k rest).length ≤ n :=
        fun k => le_trans (seekGe_length_le k rest) hrest
      by_cases hv : q < cur.vld
      · rw [scanLoop_cons, if_pos hv]
        refine ⟨fun r hr => ?_, fun g hg => ?_⟩
        · rcases (ih _ (hlen _) st).1 r hr with h | ⟨x, hx, hrest2⟩
          · exact Or.inl h
          · exact Or.inr ⟨x, List.mem_cons_of_mem _ (seekGe_subset _ _ x hx),
              hrest2⟩
        · rcases (ih _ (hlen _) st).2 g hg with h | ⟨hx, hq⟩
          · exact Or.inl h
          · exact Or.inr ⟨List.mem_cons_of_mem _ (seekGe_subset _ _ g hx), hq⟩
      · have hvq : cur.vld ≤ q := le_of_not_lt hv
        rw [scanLoop_cons, if_neg hv]
        cases hop : cur.op with
        | retract =>
          dsimp only
          refine ⟨fun r hr => ?_, fun g hg => ?_⟩
          · rcases (ih _ (hlen _) _).1 r hr with h | ⟨x, hx, hrest2⟩
            · exact Or.inl h
            · exact Or.inr ⟨x, List.mem_cons_of_mem _ (seekGe_subset _ _ x hx),
                hrest2⟩
          · rcases (ih _ (hlen _) _).2 g hg with h | ⟨hx, hq⟩
            · rcases List.mem_append.mp h with h2 | h2
              · exact Or.inl h2
              · rcases List.mem_singleton.mp h2 with rfl
                exact Or.inr ⟨List.mem_cons_self _ _, hvq⟩
            · exact Or.inr ⟨List.mem_cons_of_mem _ (seekGe_subset _ _ g hx), hq⟩
        | assert =>
          cases hcat : cat cur.aid with
          | none =>
            dsimp only
            refine ⟨fun r hr => ?_, fun g hg => ?_⟩
            · rcases (ih _ (hlen _) _).1 r hr with h | ⟨x, hx, hrest2⟩
              · exact Or.inl h
              · exact Or.inr ⟨x, List.mem_cons_of_mem _ (seekGe_subset _ _ x hx),
                  hrest2⟩
            · rcases (ih _ (hlen _) _).2 g hg with h | ⟨hx, hq⟩
              · rcases List.mem_append.mp h with h2 | h2
                · exact Or.inl h2
                · rcases List.mem_singleton.mp h2 with rfl
                  exact Or.inr ⟨List.mem_cons_self _ _, hvq⟩
              · exact Or.inr ⟨List.mem_cons_of_mem _ (seekGe_subset _ _ g hx),
                  hq⟩
          | some attr =>
            dsimp only
            refine ⟨fun r hr => ?_, fun g hg => ?_⟩
            · rcases (ih _ (hlen _) _).1 r hr with h | ⟨x, hx, hrest2⟩
              · rcases List.mem_append.mp h with h2 | h2
                · exact Or.inl h2
                · rcases List.mem_singleton.mp h2 with rfl
                  exact Or.inr ⟨cur, List.mem_cons_self _ _, rfl, rfl, hop,
                    hvq, attr, hcat, rfl⟩
              · exact Or.inr ⟨x, List.mem_cons_of_mem _ (seekGe_subset _ _ x hx),
                  hrest2⟩
            · rcases (ih _ (hlen _) _).2 g hg with h | ⟨hx, hq⟩
              · rcases List.mem_append.mp h with h2 | h2
                · exact Or.inl h2
                · rcases List.mem_singleton.mp h2 with rfl
                  exact Or.inr ⟨List.mem_cons_self _ _, hvq⟩
              · exact Or.inr ⟨List.mem_cons_of_mem _ (seekGe_subset _ _ g hx),
                  hq⟩

theorem find_eq_of_dropWhile {α : Type} (p f : α → Bool) :
    ∀ (l : List α), (∀ x ∈ l, p x = true → f x = false) →
      (l.dropWhile p).find? f = l.find? f := by
  intro l
  induction l with
  | nil => intro _; rfl
  | cons a tl ih =>
    intro h
    by_cases hp : p a = true
    · rw [List.dropWhile_cons, if_pos hp,
        ih (fun x hx => h x (List.mem_cons_of_mem _ hx)),
        List.find?_cons_of_neg _ (by simp [h a (List.mem_cons_self _ _) hp])]
    · rw [List.dropWhile_cons, if_neg hp]

theorem dropWhile_all_of_upclosed {α : Type} (R : α → α → Prop)
    (p : α → Bool) (hup : ∀ a b, R a b → p a = true → p b = true) :
    ∀ (l : List α), List.Pairwise R l →
      ∀ x ∈ l.dropWhile (fun y => !(p y)), p x = true := by
  intro l
  induction l with
  | nil => intro _ x hx; simp at hx
  | cons a tl ih =>
    intro hpw x hx
    rw [List.dropWhile_cons] at hx
    by_cases hp : p a = true
    · rw [if_neg (by simp [hp])] at hx
      rcases List.mem_cons.mp hx with rfl | hx2
      · exact hp
      · exact hup a x ((List.pairwise_cons.mp hpw).1 x hx2) hp
    · have hpf : p a = false := by revert hp; cases p a <;> simp
      rw [if_pos (by simp [hpf])] at hx
      exact ih (List.pairwise_cons.mp hpw).2 x hx

theorem firstLE_spec (e a : Nat) (q : Int) (l : List Entry) (f : Entry)
    (h : firstLE e a q l = some f) :
    f ∈ l ∧ f.eid = e ∧ f.aid = a ∧ f.vld ≤ q := by
  have hmem : f ∈ l := List.mem_of_find?_eq_some h
  have hp := List.find?_some h
  simp only [Bool.and_eq_true, beq_iff_eq, decide_eq_true_eq] at hp
  exact ⟨hmem, hp.1.1, hp.1.2, hp.2⟩

theorem entGe_atVld_iff (x : Entry) (e a : Nat) (t : Int) :
    entGe x (.atVld e a t) = true ↔
      (e < x.eid ∨ (e = x.eid ∧ (a < x.aid ∨ (a = x.aid ∧ x.vld ≤ t)))) := by
  simp [entGe]

theorem entGe_pastGroup_iff (x : Entry) (e a : Nat) :
    entGe x (.pastGroup e a) = true ↔
      (e < x.eid ∨ (e = x.eid ∧ a < x.aid)) := by
  simp [entGe]

theorem findPred_iff (x : Entry) (e a : Nat) (q : Int) :
    (x.eid == e && x.aid == a && decide (x.vld ≤ q)) = true ↔
      (x.eid = e ∧ x.aid = a ∧ x.vld ≤ q) := by
  simp [Bool.and_eq_true, and_assoc]

theorem firstLE_seek_atVld (q : Int) (cur : Entry) (rest : List Entry)
    (e a : Nat) (f : Entry) (hrel : ∀ x ∈ rest, keyLt cur x)
    (h : firstLE e a q rest = some f) :
    firstLE e a q (seekGe (.atVld cur.eid cur.aid q) rest) = some f := by
  unfold firstLE seekGe
  rw [find_eq_of_dropWhile]
  · exact h
  · intro x hx hdrop
    have hk := hrel x hx
    have hge : ¬(cur.eid < x.eid ∨ (cur.eid = x.eid ∧
        (cur.aid < x.aid ∨ (cur.aid = x.aid ∧ x.vld ≤ q)))) := by
      rw [← entGe_atVld_iff]
      rw [Bool.not_eq_true'] at hdrop
      simp [hdrop]
    rw [← Bool.not_eq_true, findPred_iff]
    simp only [keyLt] at hk
    intro hcon
    exact hge (by omega)

theorem firstLE_seek_pastGroup (q : Int) (cur : Entry) (rest : List Entry)
    (e a : Nat) (f : Entry) (hrel : ∀ x ∈ rest, keyLt cur x)
    (hne : ¬(cur.eid = e ∧ cur.aid = a))
    (h : firstLE e a q rest = some f) :
    firstLE e a q (seekGe (.pastGroup cur.eid cur.aid) rest) = some f := by
  have hf := firstLE_spec e a q rest f h
  have hkf := hrel f hf.1
  unfold firstLE seekGe
  rw [find_eq_of_dropWhile]
  · exact h
  · intro x hx hdrop
    have hk := hrel x hx
    have hge : ¬(cur.eid < x.eid ∨ (cur.eid = x.eid ∧ cur.aid < x.aid)) := by
      rw [← entGe_pastGroup_iff]
      rw [Bool.not_eq_true'] at hdrop
      simp [hdrop]
    rw [← Bool.not_eq_true, findPred_iff]
    simp only [keyLt] at hk hkf
    intro hcon
    rcases hf with ⟨_, hfe, hfa, _⟩
    exact hge (by omega)

theorem seekGe_pastGroup_no_group (l : List Entry)
    (hpw : List.Pairwise keyLt l) (e a : Nat) :
    ∀ x ∈ seekGe (.pastGroup e a) l, ¬(x.eid = e ∧ x.aid = a) := by
  intro x hx
  have hge := dropWhile_all_of_upclosed keyLt
    (fun y => entGe y (.pastGroup e a))
    (fun y z hRyz hy => by
      rw [entGe_pastGroup_iff] at hy ⊢
      simp only [keyLt] at hRyz
      omega) l hpw x hx
  rw [entGe_pastGroup_iff] at hge
  omega

theorem firstLE_cons_of_neg (e a : Nat) (q : Int) (cur : Entry)
    (rest : List Entry)
    (h : (cur.eid == e && cur.aid == a && decide (cur.vld ≤ q)) = false) :
    firstLE e a q (cur :: rest) = firstLE e a q rest := by
  unfold firstLE
  rw [List.find?_cons_of_neg _ (by simp [h])]

theorem firstLE_cons_of_pos (e a : Nat) (q : Int) (cur : Entry)
    (rest : List Entry)
    (h : (cur.eid == e && cur.aid == a && decide (cur.vld ≤ q)) = true) :
    firstLE e a q (cur :: rest) = some cur := by
  unfold firstLE
  exact @List.find?_cons_of_pos Entry
    (fun x => x.eid == e && x.aid == a && decide (x.vld ≤ q)) cur rest h

theorem scanLoop_group_main (q : Int) (cat : Nat → Option Attribute) :
    ∀ (n : Nat) (l : List Entry), l.length ≤ n → List.Pairwise keyLt l →
    ∀ (e a : Nat) (f : Entry), firstLE e a q l = some f →
      (f ∈ (scanLoop q cat l ⟨[], []⟩).decoded)
      ∧ (∀ g ∈ (scanLoop q cat l ⟨[], []⟩).decoded,
          g.eid = e → g.aid = a → g = f)
      ∧ (∀ attr, f.op = StoreOp.assert → cat f.aid = some attr →
          (e, a, if attr.cardinalityOne then decodeValueFromVal f
            else decodeValueFromKey f) ∈ (scanLoop q cat l ⟨[], []⟩).collected)
      ∧ (f.op = StoreOp.retract →
          ∀ v, (e, a, v) ∉ (scanLoop q cat l ⟨[], []⟩).collected) := by
  intro n
  induction n with
  | zero =>
    intro l hl _ e a f hf
    have hnil : l = [] := List.eq_nil_of_length_eq_zero (Nat.le_zero.mp hl)
    subst hnil
    simp [firstLE] at hf
  | succ n ih =>
    intro l hl hpw e a f hf
    cases l with
    | nil => simp [firstLE] at hf
    | cons cur rest =>
      have hrest : rest.length ≤ n := Nat.le_of_succ_le_succ hl
      have hpwr : List.Pairwise keyLt rest := (List.pairwise_cons.mp hpw).2
      have hrel : ∀ x ∈ rest, keyLt cur x := (List.pairwise_cons.mp hpw).1
      by_cases hv : q < cur.vld
      · have hfcur : (cur.eid == e && cur.aid == a && decide (cur.vld ≤ q))
            = false := by
          rw [← Bool.not_eq_true, findPred_iff]
          intro hcon
          omega
        rw [firstLE_cons_of_neg e a q cur rest hfcur] at hf
        have h1 := firstLE_seek_atVld q cur rest e a f hrel hf
        have hlen1 : (seekGe (.atVld cur.eid cur.aid q) rest).length ≤ n :=
          le_trans (seekGe_length_le _ _) hrest
        have hpw1 : List.Pairwise keyLt
            (seekGe (.atVld cur.eid cur.aid q) rest) :=
          List.Pairwise.sublist (List.dropWhile_sublist _) hpwr
        rw [scanLoop_cons, if_pos hv]
        exact ih _ hlen1 hpw1 e a f h1
      · have hvq : cur.vld ≤ q := le_of_not_lt hv
        have hlen2 : (seekGe (.pastGroup cur.eid cur.aid) rest).length ≤ n :=
          le_trans (seekGe_length_le _ _) hrest
        have hpw2 : List.Pairwise keyLt
            (seekGe (.pastGroup cur.eid cur.aid) rest) :=
          List.Pairwise.sublist (List.dropWhile_sublist _) hpwr
        have horig := scanLoop_origin q cat
          (seekGe (.pastGroup cur.eid cur.aid) rest).length
          (seekGe (.pastGroup cur.eid cur.aid) rest) le_rfl
          (⟨[], []⟩ : ScanState)
        by_cases hg : cur.eid = e ∧ cur.aid = a
        · obtain ⟨rfl, rfl⟩ := hg
          have hfcur : (cur.eid == cur.eid && cur.aid == cur.aid
              && decide (cur.vld ≤ q)) = true := by
            rw [findPred_iff]
            exact ⟨rfl, rfl, hvq⟩
          rw [firstLE_cons_of_pos _ _ q cur rest hfcur] at hf
          injection hf with hf
          subst hf
          have hno := seekGe_pastGroup_no_group rest hpwr cur.eid cur.aid
          rw [scanLoop_cons, if_neg hv]
          cases hop : cur.op with
          | retract =>
            dsimp only
            rw [scanLoop_decomp q cat
              (seekGe (.pastGroup cur.eid cur.aid) rest).length _ le_rfl]
            dsimp only
            simp only [List.nil_append, List.singleton_append]
            refine ⟨List.mem_cons_self _ _, ?_, ?_, ?_⟩
            · intro g hgmem hge hga
              rcases List.mem_cons.mp hgmem with rfl | hgm2
              · rfl
              · rcases horig.2 g hgm2 with habs | ⟨hgl2, _⟩
                · simp at habs
                · exact absurd ⟨hge, hga⟩ (hno g hgl2)
            · intro attr hassert _
              simp at hassert
            · intro _ v hvmem
              rcases horig.1 _ hvmem with habs | ⟨x, hxl2, hxe, hxa, _⟩
              · simp at habs
              · exact (hno x hxl2) ⟨hxe, hxa⟩
          | assert =>
            cases hcat : cat cur.aid with
            | none =>
              dsimp only
              rw [scanLoop_decomp q cat
                (seekGe (.pastGroup cur.eid cur.aid) rest).length _ le_rfl]
              dsimp only
              simp only [List.nil_append, List.singleton_append]
              refine ⟨List.mem_cons_self _ _, ?_, ?_, ?_⟩
              · intro g hgmem hge hga
                rcases List.mem_cons.mp hgmem with rfl | hgm2
                · rfl
                · rcases horig.2 g hgm2 with habs | ⟨hgl2, _⟩
                  · simp at habs
                  · exact absurd ⟨hge, hga⟩ (hno g hgl2)
              · intro attr _ hcat2
                simp at hcat2
              · intro hretract
                simp at hretract
            | some attr =>
              dsimp only
              rw [scanLoop_decomp q cat
                (seekGe (.pastGroup cur.eid cur.aid) rest).length _ le_rfl]
              dsimp only
              simp only [List.nil_append, List.singleton_append]
              refine ⟨List.mem_cons_self _ _, ?_, ?_, ?_⟩
              · intro g hgmem hge hga
                rcases List.mem_cons.mp hgmem with rfl | hgm2
                · rfl
                · rcases horig.2 g hgm2 with habs | ⟨hgl2, _⟩
                  · simp at habs
                  · exact absurd ⟨hge, hga⟩ (hno g hgl2)
              · intro attr0 _ hcat2
                injection hcat2 with hcat2
                subst hcat2
                exact List.mem_cons_self _ _
              · intro hretract
                simp at hretract
        · have hfcur : (cur.eid == e && cur.aid == a && decide (cur.vld ≤ q))
              = false := by
            rw [← Bool.not_eq_true, findPred_iff]
            intro hcon
            exact hg ⟨hcon.1, hcon.2.1⟩
          rw [firstLE_cons_of_neg e a q cur rest hfcur] at hf
          have h1 := firstLE_seek_pastGroup q cur rest e a f hrel hg hf
          have IH2 := ih _ hlen2 hpw2 e a f h1
          rw [scanLoop_cons, if_neg hv]
          cases hop : cur.op with
          | retract =>
            dsimp only
            rw [scanLoop_decomp q cat
              (seekGe (.pastGroup cur.eid cur.aid) rest).length _ le_rfl]
            dsimp only
            simp only [List.nil_append, List.singleton_append]
            refine ⟨List.mem_cons_of_mem _ IH2.1, ?_, ?_, ?_⟩
            · intro g hgmem hge hga
              rcases List.mem_cons.mp hgmem with rfl | hgm2
              · exact absurd ⟨hge, hga⟩ hg
              · exact IH2.2.1 g hgm2 hge hga
            · intro attr hassert hcat2
              exact IH2.2.2.1 attr hassert hcat2
            · intro hretract v hvmem
              exact IH2.2.2.2 hretract v hvmem
          | assert =>
            cases hcat : cat cur.aid with
            | none =>
              dsimp only
              rw [scanLoop_decomp q cat
                (seekGe (.pastGroup cur.eid cur.aid) rest).length _ le_rfl]
              dsimp only
              simp only [List.nil_append, List.singleton_append]
              refine ⟨List.mem_cons_of_mem _ IH2.1, ?_, ?_, ?_⟩
              · intro g hgmem hge hga
                rcases List.mem_cons.mp hgmem with rfl | hgm2
                · exact absurd ⟨hge, hga⟩ hg
                · exact IH2.2.1 g hgm2 hge hga
              · intro attr hassert hcat2
                exact IH2.2.2.1 attr hassert hcat2
              · intro hretract v hvmem
                exact IH2.2.2.2 hretract v hvmem
            | some attr =>
              dsimp only
              rw [scanLoop_decomp q cat
                (seekGe (.pastGroup cur.eid cur.aid) rest).length _ le_rfl]
              dsimp only
              simp only [List.nil_append, List.singleton_append]
              refine ⟨List.mem_cons_of_mem _ IH2.1, ?_, ?_, ?_⟩
              · intro g hgmem hge hga
                rcases List.mem_cons.mp hgmem with rfl | hgm2
                · exact absurd ⟨hge, hga⟩ hg
                · exact IH2.2.1 g hgm2 hge hga
              · intro attr0 hassert hcat2
                exact List.mem_cons_of_mem _ (IH2.2.2.1 attr0 hassert hcat2)
              · intro hretract v hvmem
                rcases List.mem_cons.mp hvmem with heq | hvm2
                · have h1e := congrArg Prod.fst heq
                  have h2a := congrArg (fun p => p.2.1) heq
                  exact hg ⟨h1e.symm, h2a.symm⟩
                · exact IH2.2.2.2 hretract v hvm2

/-- Claim C3: in entities_at, for every (entity, attribute) key group of a
sorted EAVT store, only the first entry with stored validity at most the
requested validity is decoded: an assertion reports its value for that
entity, a retraction leaves the attribute absent from the output, and in
either case the group is skipped past, so no older entry of the group is
ever decoded. -/
theorem entitiesAt_first_qualifying_decides (store : List Entry) (q : Int)
    (cat : Nat → Option Attribute) (e a : Nat) (f : Entry)
    (hsort : List.Pairwise keyLt store)
    (hf : firstLE e a q store = some f) :
    f ∈ (entitiesAt q cat store).decoded
    ∧ (∀ g ∈ (entitiesAt q cat store).decoded, g.eid = e → g.aid = a → g = f)
    ∧ (∀ attr, f.op = StoreOp.assert → cat f.aid = some attr →
        (e, a, if attr.cardinalityOne then decodeValueFromVal f
          else decodeValueFromKey f) ∈ (entitiesAt q cat store).collected)
    ∧ (f.op = StoreOp.retract →
        ∀ v, (e, a, v) ∉ (entitiesAt q cat store).collected) :=
  scanLoop_group_main q cat store.length store le_rfl hsort e a f hf

/-- Witness for claim C3: a three-entry group read at validity 5 decodes
exactly the entry at validity 3 and reports its value-cell body. -/
theorem entitiesAt_first_qualifying_decides_witness :
    List.Pairwise keyLt
      [⟨1, 1, 10, 100, .assert, 5⟩, ⟨1, 1, 3, 101, .assert, 7⟩,
       ⟨1, 1, 1, 102, .assert, 9⟩]
    ∧ firstLE 1 1 5
        [⟨1, 1, 10, 100, .assert, 5⟩, ⟨1, 1, 3, 101, .assert, 7⟩,
         ⟨1, 1, 1, 102, .assert, 9⟩]
      = some ⟨1, 1, 3, 101, .assert, 7⟩
    ∧ (⟨1, 1, 3, 101, .assert, 7⟩ : Entry) ∈
        (entitiesAt 5 (fun n => if n = 1 then some ⟨1, true⟩ else none)
          [⟨1, 1, 10, 100, .assert, 5⟩, ⟨1, 1, 3, 101, .assert, 7⟩,
           ⟨1, 1, 1, 102, .assert, 9⟩]).decoded
    ∧ (1, 1, 7) ∈
        (entitiesAt 5 (fun n => if n = 1 then some ⟨1, true⟩ else none)
          [⟨1, 1, 10, 100, .assert, 5⟩, ⟨1, 1, 3, 101, .assert, 7⟩,
           ⟨1, 1, 1, 102, .assert, 9⟩]).collected :=
  ⟨by decide, by decide,
    (entitiesAt_first_qualifying_decides
      [⟨1, 1, 10, 100, .assert, 5⟩, ⟨1, 1, 3, 101, .assert, 7⟩,
       ⟨1, 1, 1, 102, .assert, 9⟩] 5
      (fun n => if n = 1 then some ⟨1, true⟩ else none) 1 1
      ⟨1, 1, 3, 101, .assert, 7⟩ (by decide) (by decide)).1,
    (entitiesAt_first_qualifying_decides
      [⟨1, 1, 10, 100, .assert, 5⟩, ⟨1, 1, 3, 101, .assert, 7⟩,
       ⟨1, 1, 1, 102, .assert, 9⟩] 5
      (fun n => if n = 1 then some ⟨1, true⟩ else none) 1 1
      ⟨1, 1, 3, 101, .assert, 7⟩ (by decide) (by decide)).2.2.1
      ⟨1, true⟩ rfl rfl⟩

/-- Claim C8: every record reported by entities_at comes from an assertion
entry, and its value is the value-cell body after the op byte when the
attribute has cardinality one, and the key-encoded value when it has
cardinality many. -/
theorem entitiesAt_value_decoding (store : List Entry) (q : Int)
    (cat : Nat → Option Attribute) (r : Nat × Nat × Nat)
    (h : r ∈ (entitiesAt q cat store).collected) :
    ∃ x, x ∈ store ∧ x.eid = r.1 ∧ x.aid = r.2.1 ∧ x.op = StoreOp.assert ∧
      x.vld ≤ q ∧ ∃ attr, cat x.aid = some attr ∧
        r.2.2 = (if attr.cardinalityOne then decodeValueFromVal x
          else decodeValueFromKey x) := by
  rcases (scanLoop_origin q cat store.length store le_rfl ⟨[], []⟩).1 r h
    with habs | hx
  · simp at habs
  · exact hx

/-- Witness for claim C8: a cardinality-many attribute reports the
key-encoded value. -/
theorem entitiesAt_value_decoding_witness :
    (1, 2, 104) ∈
      (entitiesAt 5 (fun n => if n = 1 then some ⟨1, true⟩ else some ⟨2, false⟩)
        [⟨1, 2, 4, 104, .assert, 6⟩]).collected
    ∧ ∃ x, x ∈ [(⟨1, 2, 4, 104, .assert, 6⟩ : Entry)] ∧
        x.eid = 1 ∧ x.aid = 2 ∧ x.op = StoreOp.assert ∧
        x.vld ≤ 5 ∧ ∃ attr,
          (fun n => if n = 1 then some ⟨1, true⟩
            else some (⟨2, false⟩ : Attribute)) x.aid = some attr ∧
          (104 : Nat) = (if attr.cardinalityOne then decodeValueFromVal x
            else decodeValueFromKey x) :=
  ⟨by simp [entitiesAt, scanLoop_cons, scanLoop_nil, seekGe, entGe,
      decodeValueFromVal, decodeValueFromKey, List.dropWhile],
    entitiesAt_value_decoding [⟨1, 2, 4, 104, .assert, 6⟩] 5
      (fun n => if n = 1 then some ⟨1, true⟩ else some ⟨2, false⟩)
      (1, 2, 104)
      (by simp [entitiesAt, scanLoop_cons, scanLoop_nil, seekGe, entGe,
        decodeValueFromVal, decodeValueFromKey, List.dropWhile])⟩
